import Mathlib

/-!
Verification of the Markov-chain adaptive-bitrate streaming simulator
(markov-chain.py).

The Python source is shallowly embedded: Python floats are modelled as
exact rationals, Python exceptions are modelled with an explicit error
type threaded through Except, and the global random source is modelled
as an explicit tape of draws (a function from the draw counter to the
drawn value).  The square root used by the sample standard deviation
has no exact rational counterpart, so it is passed as an explicit
function parameter; no claim below depends on its values.
-/

/-- Errors the embedded Python code can raise: division by zero,
statistics.mean or statistics.stdev on too little data, and
out-of-range list indexing. -/
inductive PyErr where
  | zeroDivisionError : PyErr
  | statisticsError : PyErr
  | indexError : PyErr
  deriving DecidableEq

/-- Python list indexing l[i] for a non-negative index: the element, or
IndexError when the index is out of range. -/
def pyGet {α : Type} (l : List α) (i : ℕ) : Except PyErr α :=
  match l.get? i with
  | some x => .ok x
  | none => .error .indexError

/-- Python statistics.mean: the arithmetic mean of a list, raising
StatisticsError on empty input. -/
def mean (l : List ℚ) : Except PyErr ℚ :=
  match l with
  | [] => .error .statisticsError
  | _ => .ok (l.sum / (l.length : ℚ))

/-- Python division, raising ZeroDivisionError on a zero divisor. -/
def pyDiv (a b : ℚ) : Except PyErr ℚ :=
  if b = 0 then .error .zeroDivisionError else .ok (a / b)

/-- Python statistics.stdev: the Bessel-corrected sample standard
deviation, raising StatisticsError on fewer than two data points.  The
floating-point square root is abstracted as the parameter sqrtFn. -/
def stdev (sqrtFn : ℚ → ℚ) (l : List ℚ) : Except PyErr ℚ :=
  if l.length < 2 then .error .statisticsError
  else .ok (sqrtFn ((l.map (fun x => (x - l.sum / (l.length : ℚ)) *
      (x - l.sum / (l.length : ℚ)))).sum / ((l.length : ℚ) - 1)))

/-- Inner loop of simulate_throughput: scan the probabilities of the
current row in index order, accumulating the running sum cum, and
return the first index j at which the drawn value r is strictly below
the running sum; if the scan exhausts the row, return current
unchanged (the loop ends without executing its break). -/
def chainScan (r : ℚ) : List ℚ → ℚ → ℕ → ℕ → ℕ
  | [], _, _, current => current
  | p :: rest, cum, j, current =>
    if r < cum + p then j else chainScan r rest (cum + p) (j + 1) current

/-- One transition of the Markov chain: fetch row P[current] (IndexError
when current is out of range) and scan it against the draw r. -/
def chainStep (P : List (List ℚ)) (current : ℕ) (r : ℚ) : Except PyErr ℕ :=
  match pyGet P current with
  | .error e => .error e
  | .ok row => .ok (chainScan r row 0 0 current)

/-- Loop body of simulate_throughput: n steps remain, t is the position
on the random tape, current is the current state index.  Each step
appends states[current] and then transitions on the draw rand t. -/
def simulate_throughput_go (P : List (List ℚ)) (states : List ℚ)
    (rand : ℕ → ℚ) : ℕ → ℕ → ℕ → Except PyErr (List ℚ)
  | 0, _, _ => .ok []
  | n + 1, t, current =>
    match pyGet states current with
    | .error e => .error e
    | .ok s =>
      match chainStep P current (rand t) with
      | .error e => .error e
      | .ok next =>
        match simulate_throughput_go P states rand n (t + 1) next with
        | .error e => .error e
        | .ok rest => .ok (s :: rest)

/-- simulate_throughput from markov-chain.py: starting from state index
0, emit states[current] and transition num_steps times.  A negative
num_steps gives an empty Python range, hence zero iterations. -/
def simulate_throughput (num_steps : ℤ) (P : List (List ℚ))
    (states : List ℚ) (rand : ℕ → ℚ) : Except PyErr (List ℚ) :=
  simulate_throughput_go P states rand num_steps.toNat 0 0

/-- get_smoothed_throughput from markov-chain.py: the mean of the slice
trace[start : idx + 1] with start = max(0, idx - window + 1). -/
def get_smoothed_throughput (trace : List ℚ) (idx window : ℕ) :
    Except PyErr ℚ :=
  let start := (max 0 ((idx : ℤ) - (window : ℤ) + 1)).toNat
  mean ((trace.drop start).take (idx + 1 - start))

/-- Loop body of simulate_playback: iterate over the suffix of the trace
that starts at index i, carrying buffer_sec and total_stall. -/
def playback_loop (trace : List ℚ) (seg : ℚ) (w : ℕ) :
    List ℚ → ℕ → ℚ → ℚ → Except PyErr (ℚ × ℚ)
  | [], _, buffer_sec, total_stall => .ok (buffer_sec, total_stall)
  | bw :: rest, i, buffer_sec, total_stall =>
    match get_smoothed_throughput trace i w with
    | .error e => .error e
    | .ok quality =>
      match pyDiv (quality * seg) bw with
      | .error e => .error e
      | .ok download_time =>
        if buffer_sec ≥ download_time then
          playback_loop trace seg w rest (i + 1)
            (buffer_sec - download_time + seg) total_stall
        else
          playback_loop trace seg w rest (i + 1)
            (0 + seg) (total_stall + (download_time - buffer_sec))

/-- The generator feeding the final statistics.mean of
simulate_playback: the list of smoothed throughputs at indices
i, i + 1, ..., i + n - 1. -/
def quality_list (trace : List ℚ) (w : ℕ) : ℕ → ℕ → Except PyErr (List ℚ)
  | 0, _ => .ok []
  | n + 1, i =>
    match get_smoothed_throughput trace i w with
    | .error e => .error e
    | .ok q =>
      match quality_list trace w n (i + 1) with
      | .error e => .error e
      | .ok rest => .ok (q :: rest)

/-- simulate_playback from markov-chain.py: run the buffer loop over the
trace starting from buffer_sec = segment_length * smooth_window, then
return (mean of the smoothed throughputs, total stall time). -/
def simulate_playback (trace : List ℚ) (segment_length : ℚ)
    (smooth_window : ℕ) : Except PyErr (ℚ × ℚ) :=
  match playback_loop trace segment_length smooth_window trace 0
      (segment_length * (smooth_window : ℚ)) 0 with
  | .error e => .error e
  | .ok final =>
    match quality_list trace smooth_window trace.length 0 with
    | .error e => .error e
    | .ok qs =>
      match mean qs with
      | .error e => .error e
      | .ok avg => .ok (avg, final.2)

/-- Loop body of monte_carlo: n runs remain and k runs are already done;
run k consumes the draws k * num_steps.toNat, ..., of the global tape. -/
def monte_carlo_loop (P : List (List ℚ)) (states : List ℚ)
    (num_steps : ℤ) (seg : ℚ) (w : ℕ) (rand : ℕ → ℚ) :
    ℕ → ℕ → Except PyErr (List (ℚ × ℚ))
  | 0, _ => .ok []
  | n + 1, k =>
    match simulate_throughput num_steps P states
        (fun t => rand (k * num_steps.toNat + t)) with
    | .error e => .error e
    | .ok trace =>
      match simulate_playback trace seg w with
      | .error e => .error e
      | .ok outcome =>
        match monte_carlo_loop P states num_steps seg w rand n (k + 1) with
        | .error e => .error e
        | .ok rest => .ok (outcome :: rest)

/-- monte_carlo from markov-chain.py: runs independent trials, each
drawing a fresh trace and replaying it, returning the list of
(average bitrate, total stall) outcomes. -/
def monte_carlo (P : List (List ℚ)) (states : List ℚ) (num_steps : ℤ)
    (seg : ℚ) (w : ℕ) (runs : ℕ) (rand : ℕ → ℚ) :
    Except PyErr (List (ℚ × ℚ)) :=
  monte_carlo_loop P states num_steps seg w rand runs 0

/-- One row of the sweep table written by parameter_sweep, in the order
of the CSV columns. -/
structure SweepCell where
  segment_length : ℚ
  smooth_window : ℕ
  mean_bitrate : ℚ
  sd_bitrate : ℚ
  mean_stall : ℚ
  sd_stall : ℚ
  deriving DecidableEq

/-- Body of one sweep iteration: run monte_carlo for the configuration
(seg, w) and aggregate mean and sample standard deviation of the
bitrates and of the stall times. -/
def sweep_cell (sqrtFn : ℚ → ℚ) (P : List (List ℚ)) (states : List ℚ)
    (num_steps : ℤ) (runs : ℕ) (rand : ℕ → ℚ) (seg : ℚ) (w : ℕ) :
    Except PyErr SweepCell :=
  match monte_carlo P states num_steps seg w runs rand with
  | .error e => .error e
  | .ok data =>
    match mean (data.map Prod.fst) with
    | .error e => .error e
    | .ok mq =>
      match stdev sqrtFn (data.map Prod.fst) with
      | .error e => .error e
      | .ok sq =>
        match mean (data.map Prod.snd) with
        | .error e => .error e
        | .ok ms =>
          match stdev sqrtFn (data.map Prod.snd) with
          | .error e => .error e
          | .ok ss => .ok ⟨seg, w, mq, sq, ms, ss⟩

/-- Inner loop of parameter_sweep over the smoothing windows, for a
fixed segment length; c counts the sweep cells already produced, so
cell c starts at offset c * runs * num_steps.toNat of the random tape. -/
def sweep_rows_inner (sqrtFn : ℚ → ℚ) (P : List (List ℚ))
    (states : List ℚ) (num_steps : ℤ) (runs : ℕ) (rand : ℕ → ℚ)
    (seg : ℚ) : List ℕ → ℕ → Except PyErr (List SweepCell)
  | [], _ => .ok []
  | w :: ws, c =>
    match sweep_cell sqrtFn P states num_steps runs
        (fun t => rand (c * runs * num_steps.toNat + t)) seg w with
    | .error e => .error e
    | .ok cell =>
      match sweep_rows_inner sqrtFn P states num_steps runs rand seg ws
          (c + 1) with
      | .error e => .error e
      | .ok rest => .ok (cell :: rest)

/-- Outer loop of parameter_sweep over the segment lengths. -/
def sweep_rows (sqrtFn : ℚ → ℚ) (P : List (List ℚ)) (states : List ℚ)
    (num_steps : ℤ) (runs : ℕ) (rand : ℕ → ℚ)
    (smooth_windows : List ℕ) : List ℚ → ℕ → Except PyErr (List SweepCell)
  | [], _ => .ok []
  | seg :: segs, c =>
    match sweep_rows_inner sqrtFn P states num_steps runs rand seg
        smooth_windows c with
    | .error e => .error e
    | .ok rows =>
      match sweep_rows sqrtFn P states num_steps runs rand smooth_windows
          segs (c + smooth_windows.length) with
      | .error e => .error e
      | .ok rest => .ok (rows ++ rest)

/-- parameter_sweep from markov-chain.py: the rows of the emitted table,
segment lengths outer, smoothing windows inner. -/
def parameter_sweep (sqrtFn : ℚ → ℚ) (P : List (List ℚ))
    (states : List ℚ) (num_steps : ℤ) (segment_lengths : List ℚ)
    (smooth_windows : List ℕ) (runs : ℕ) (rand : ℕ → ℚ) :
    Except PyErr (List SweepCell) :=
  sweep_rows sqrtFn P states num_steps runs rand smooth_windows
    segment_lengths 0

/-- Modelled from the spec wording of SmoothedEstimator: the arithmetic
mean of the slice trace[max(0, idx - window + 1) .. idx] inclusive, as
a total rational-valued function. -/
def smoothedSpec (trace : List ℚ) (idx window : ℕ) : ℚ :=
  let start := (max 0 ((idx : ℤ) - (window : ℤ) + 1)).toNat
  let s := (trace.drop start).take (idx + 1 - start)
  s.sum / (s.length : ℚ)

/-- Modelled from the spec wording of PlaybackSimulator: one step of the
buffer recurrence at index i.  download_time is the smoothed quality
times the segment length divided by the instantaneous throughput
trace[i]; a sufficient buffer is drained by download_time with no
stall, otherwise the shortfall is added to the stall total and the
buffer empties; either way the new segment adds segment_length. -/
def specStep (trace : List ℚ) (seg : ℚ) (w : ℕ) (i : ℕ) (bs : ℚ × ℚ) :
    ℚ × ℚ :=
  let download_time := smoothedSpec trace i w * seg / trace.getD i 0
  if bs.1 ≥ download_time then (bs.1 - download_time + seg, bs.2)
  else (0 + seg, bs.2 + (download_time - bs.1))

/-- Modelled from the spec wording of PlaybackSimulator: the buffer and
stall accumulation over the whole trace, with the buffer starting at
segment_length * smoothing_window and the stall at zero. -/
def specRun (trace : List ℚ) (seg : ℚ) (w : ℕ) : ℚ × ℚ :=
  (List.range trace.length).foldl (fun bs i => specStep trace seg w i bs)
    (seg * (w : ℚ), 0)

/-- Modelled from the spec wording: the mean of the smoothed quality
decisions over all indices of the trace. -/
def avgSmoothedSpec (trace : List ℚ) (w : ℕ) : ℚ :=
  ((List.range trace.length).map (fun i => smoothedSpec trace i w)).sum /
    ((trace.length : ℚ))

/-- Modelled from the spec wording of ThroughputChain: the first index j
of the row, scanned in index order, whose cumulative probability
strictly exceeds the draw r. -/
def firstExceed (row : List ℚ) (r : ℚ) : Option ℕ :=
  (List.range row.length).find? (fun j => decide (r < (row.take (j + 1)).sum))

/-- Modelled from the spec wording of ThroughputChain: the next state is
the first index whose cumulative probability strictly exceeds r, and
the current state when the draw falls in an uncovered tail. -/
def specNext (row : List ℚ) (r : ℚ) (current : ℕ) : ℕ :=
  (firstExceed row r).getD current

/-- State reached after k further chain transitions when standing in
state current with the next draw at tape position t. -/
def seqFrom (P : List (List ℚ)) (rand : ℕ → ℚ) :
    ℕ → ℕ → ℕ → ℕ
  | current, _, 0 => current
  | current, t, k + 1 =>
    seqFrom P rand (specNext (P.getD current []) (rand t) current) (t + 1) k

/-- Modelled from the spec wording of ThroughputChain: the state index
occupied before emitting the t-th sample, starting from state 0. -/
def specStateSeq (P : List (List ℚ)) (rand : ℕ → ℚ) : ℕ → ℕ
  | 0 => 0
  | t + 1 =>
    specNext (P.getD (specStateSeq P rand t) []) (rand t)
      (specStateSeq P rand t)

lemma pyGet_eq_ok {α : Type} {l : List α} {i : ℕ} {x : α} :
    pyGet l i = .ok x ↔ l.get? i = some x := by
  unfold pyGet
  cases h : l.get? i <;> simp

lemma mean_of_ne_nil {l : List ℚ} (h : l ≠ []) :
    mean l = .ok (l.sum / (l.length : ℚ)) := by
  cases l with
  | nil => exact absurd rfl h
  | cons a t => rfl

lemma mean_singleton (x : ℚ) : mean [x] = .ok x := by
  rw [mean_of_ne_nil (by simp)]
  simp

lemma smoothed_start_le (idx window : ℕ) (hw : 1 ≤ window) :
    (max 0 ((idx : ℤ) - (window : ℤ) + 1)).toNat ≤ idx := by
  omega

lemma smoothed_slice_ne_nil {trace : List ℚ} {idx window : ℕ}
    (hidx : idx < trace.length) (hw : 1 ≤ window) :
    (trace.drop ((max 0 ((idx : ℤ) - (window : ℤ) + 1)).toNat)).take
      (idx + 1 - (max 0 ((idx : ℤ) - (window : ℤ) + 1)).toNat) ≠ [] := by
  have hle := smoothed_start_le idx window hw
  intro hnil
  have := congrArg List.length hnil
  simp [List.length_take, List.length_drop] at this
  omega

lemma smoothed_ok {trace : List ℚ} {idx window : ℕ}
    (hidx : idx < trace.length) (hw : 1 ≤ window) :
    get_smoothed_throughput trace idx window =
      .ok (smoothedSpec trace idx window) := by
  unfold get_smoothed_throughput smoothedSpec
  rw [mean_of_ne_nil (smoothed_slice_ne_nil hidx hw)]

lemma chainScan_eq (r : ℚ) (row : List ℚ) : ∀ (cum : ℚ) (j current : ℕ),
    chainScan r row cum j current =
      ((List.range row.length).find?
        (fun k => decide (r < cum + (row.take (k + 1)).sum))).elim
        current (fun k => j + k) := by
  induction row with
  | nil =>
    intro cum j current
    simp [chainScan]
  | cons p rest ih =>
    intro cum j current
    rw [chainScan, List.length_cons, List.range_succ_eq_map,
      List.find?_cons]
    by_cases h : r < cum + p
    · simp [h]
    · have h0 : (decide (r < cum + ((p :: rest).take (0 + 1)).sum)) = false := by
        simp [h]
      rw [h0, List.find?_map]
      have hcomp : ((fun k => decide (r < cum + ((p :: rest).take (k + 1)).sum))
            ∘ Nat.succ)
          = (fun k => decide (r < (cum + p) + (rest.take (k + 1)).sum)) := by
        funext k
        simp [Function.comp, List.take_succ_cons, add_assoc]
      rw [hcomp, if_neg h, ih (cum + p) (j + 1) current]
      cases hf : (List.range rest.length).find?
          (fun k => decide (r < cum + p + (rest.take (k + 1)).sum)) with
      | none => simp [hf]
      | some k => simp [hf, Option.elim]; omega

lemma chainScan_specNext (r : ℚ) (row : List ℚ) (current : ℕ) :
    chainScan r row 0 0 current = specNext row r current := by
  rw [chainScan_eq]
  have hpred : (fun k => decide (r < 0 + (row.take (k + 1)).sum))
      = (fun k => decide (r < (row.take (k + 1)).sum)) := by
    funext k
    rw [zero_add]
  rw [hpred]
  unfold specNext firstExceed
  cases h : (List.range row.length).find?
      (fun k => decide (r < (row.take (k + 1)).sum)) <;>
    simp [h, Option.elim]

lemma chainStep_ok {P : List (List ℚ)} {row : List ℚ} {current : ℕ}
    (r : ℚ) (h : P.get? current = some row) :
    chainStep P current r = .ok (specNext row r current) := by
  have h' : P[current]? = some row := by
    rw [← List.get?_eq_getElem?]
    exact h
  simp [chainStep, pyGet, h', chainScan_specNext]

lemma chainScan_stay (r : ℚ) (row : List ℚ) : ∀ (cum : ℚ) (j current : ℕ),
    (∀ p ∈ row, 0 ≤ p) → cum + row.sum ≤ r →
    chainScan r row cum j current = current := by
  induction row with
  | nil =>
    intro cum j current _ _
    rfl
  | cons p rest ih =>
    intro cum j current hnn hsum
    rw [List.sum_cons] at hsum
    have hrest : 0 ≤ rest.sum :=
      List.sum_nonneg (fun x hx => hnn x (List.mem_cons_of_mem _ hx))
    have hnlt : ¬ r < cum + p := by
      intro hlt
      linarith
    rw [chainScan, if_neg hnlt]
    exact ih (cum + p) (j + 1) current
      (fun x hx => hnn x (List.mem_cons_of_mem _ hx)) (by linarith)

lemma chainStep_ok_inv {P : List (List ℚ)} {current : ℕ} {r : ℚ} {next : ℕ}
    (h : chainStep P current r = .ok next) :
    next = specNext (P.getD current []) r current := by
  unfold chainStep pyGet at h
  cases hrow : P.get? current with
  | none =>
    rw [hrow] at h
    simp at h
  | some row =>
    rw [hrow] at h
    simp at h
    rw [List.getD_eq_get?, hrow, Option.getD_some, ← h,
      chainScan_specNext]

lemma seqFrom_stateSeq (P : List (List ℚ)) (rand : ℕ → ℚ) :
    ∀ (k t : ℕ),
    seqFrom P rand (specStateSeq P rand t) t k = specStateSeq P rand (t + k) := by
  intro k
  induction k with
  | zero =>
    intro t
    rfl
  | succ k ih =>
    intro t
    rw [seqFrom]
    have : specNext (P.getD (specStateSeq P rand t) []) (rand t)
        (specStateSeq P rand t) = specStateSeq P rand (t + 1) := rfl
    rw [this, ih (t + 1)]
    congr 1
    omega

lemma go_ok_spec {P : List (List ℚ)} {states : List ℚ} {rand : ℕ → ℚ} :
    ∀ (n t current : ℕ) (l : List ℚ),
    simulate_throughput_go P states rand n t current = .ok l →
    l.length = n ∧
      ∀ k, k < n → l.get? k = states.get? (seqFrom P rand current t k) := by
  intro n
  induction n with
  | zero =>
    intro t current l h
    simp [simulate_throughput_go] at h
    subst h
    exact ⟨rfl, fun k hk => absurd hk (by omega)⟩
  | succ n ih =>
    intro t current l h
    rw [simulate_throughput_go] at h
    cases hs : pyGet states current with
    | error e =>
      simp only [hs] at h
      exact Except.noConfusion h
    | ok s =>
      simp only [hs] at h
      cases hc : chainStep P current (rand t) with
      | error e =>
        simp only [hc] at h
        exact Except.noConfusion h
      | ok next =>
        simp only [hc] at h
        cases hr : simulate_throughput_go P states rand n (t + 1) next with
        | error e =>
          simp only [hr] at h
          exact Except.noConfusion h
        | ok rest =>
          simp only [hr] at h
          simp at h
          subst h
          obtain ⟨hlen, hget⟩ := ih (t + 1) next rest hr
          refine ⟨by simp [hlen], ?_⟩
          intro k hk
          cases k with
          | zero =>
            have hcur : states.get? current = some s := pyGet_eq_ok.mp hs
            rw [List.get?_eq_getElem?] at hcur
            simp [seqFrom, hcur]
          | succ k =>
            have hnext : next = specNext (P.getD current []) (rand t) current :=
              chainStep_ok_inv hc
            rw [seqFrom, ← hnext]
            simpa using hget k (by omega)

lemma go_mem {P : List (List ℚ)} {states : List ℚ} {rand : ℕ → ℚ} :
    ∀ (n t current : ℕ) (l : List ℚ),
    simulate_throughput_go P states rand n t current = .ok l →
    ∀ x ∈ l, x ∈ states := by
  intro n
  induction n with
  | zero =>
    intro t current l h
    simp [simulate_throughput_go] at h
    subst h
    intro x hx
    simp at hx
  | succ n ih =>
    intro t current l h
    rw [simulate_throughput_go] at h
    cases hs : pyGet states current with
    | error e =>
      simp only [hs] at h
      exact Except.noConfusion h
    | ok s =>
      simp only [hs] at h
      cases hc : chainStep P current (rand t) with
      | error e =>
        simp only [hc] at h
        exact Except.noConfusion h
      | ok next =>
        simp only [hc] at h
        cases hr : simulate_throughput_go P states rand n (t + 1) next with
        | error e =>
          simp only [hr] at h
          exact Except.noConfusion h
        | ok rest =>
          simp only [hr] at h
          simp at h
          subst h
          intro x hx
          rcases List.mem_cons.mp hx with hx0 | hxr
          · subst hx0
            exact List.get?_mem (pyGet_eq_ok.mp hs)
          · exact ih (t + 1) next rest hr x hxr

lemma drop_cons_lt {α : Type} {trace rest : List α} {bw : α} {i : ℕ}
    (h : trace.drop i = bw :: rest) : i < trace.length := by
  by_contra hge
  rw [List.drop_eq_nil_of_le (by omega)] at h
  exact List.noConfusion h

lemma drop_cons_get {α : Type} {trace rest : List α} {bw : α} {i : ℕ}
    (h : trace.drop i = bw :: rest) : trace.get? i = some bw := by
  have hd := List.get?_drop trace i 0
  rw [h] at hd
  simpa using hd.symm

lemma drop_cons_tail {α : Type} {trace rest : List α} {bw : α} {i : ℕ}
    (h : trace.drop i = bw :: rest) : trace.drop (i + 1) = rest := by
  have hd := List.drop_drop 1 i trace
  rw [h] at hd
  simpa using hd.symm

lemma playback_loop_spec (trace : List ℚ) (seg : ℚ) (w : ℕ)
    (hw : 1 ≤ w) (hpos : ∀ x ∈ trace, 0 < x) :
    ∀ (suffix : List ℚ) (i : ℕ) (buf stall : ℚ),
    trace.drop i = suffix →
    playback_loop trace seg w suffix i buf stall =
      .ok ((List.range' i suffix.length).foldl
        (fun bs j => specStep trace seg w j bs) (buf, stall)) := by
  intro suffix
  induction suffix with
  | nil =>
    intro i buf stall _
    simp [playback_loop]
  | cons bw rest ih =>
    intro i buf stall hdrop
    have hlen : i < trace.length := drop_cons_lt hdrop
    have hget : trace.get? i = some bw := drop_cons_get hdrop
    have hbw : 0 < bw := hpos bw (List.get?_mem hget)
    have hgetD : getElem? trace i = some bw := by
      rw [← List.get?_eq_getElem?]
      exact hget
    have hdiv : pyDiv (smoothedSpec trace i w * seg) bw =
        .ok (smoothedSpec trace i w * seg / bw) := by
      simp [pyDiv, ne_of_gt hbw]
    rw [playback_loop]
    simp only [smoothed_ok hlen hw, hdiv]
    rw [List.length_cons, List.range'_succ, List.foldl_cons]
    by_cases hbr : buf ≥ smoothedSpec trace i w * seg / bw
    · have hstep : specStep trace seg w i (buf, stall) =
          (buf - smoothedSpec trace i w * seg / bw + seg, stall) := by
        simp [specStep, hgetD, hbr]
      rw [if_pos hbr, ih (i + 1) _ _ (drop_cons_tail hdrop), hstep]
    · have hstep : specStep trace seg w i (buf, stall) =
          (0 + seg, stall + (smoothedSpec trace i w * seg / bw - buf)) := by
        simp [specStep, hgetD, hbr]
      rw [if_neg hbr, ih (i + 1) _ _ (drop_cons_tail hdrop), hstep]

lemma quality_list_spec (trace : List ℚ) (w : ℕ) (hw : 1 ≤ w) :
    ∀ (n i : ℕ), i + n ≤ trace.length →
    quality_list trace w n i =
      .ok ((List.range' i n).map (fun k => smoothedSpec trace k w)) := by
  intro n
  induction n with
  | zero =>
    intro i _
    simp [quality_list]
  | succ n ih =>
    intro i h
    rw [quality_list]
    simp only [smoothed_ok (show i < trace.length by omega) hw,
      ih (i + 1) (by omega)]
    rw [List.range'_succ]
    simp

lemma simulate_playback_spec (trace : List ℚ) (seg : ℚ) (w : ℕ)
    (hne : trace ≠ []) (hw : 1 ≤ w) (hpos : ∀ x ∈ trace, 0 < x) :
    simulate_playback trace seg w =
      .ok (avgSmoothedSpec trace w, (specRun trace seg w).2) := by
  have hloop := playback_loop_spec trace seg w hw hpos trace 0
    (seg * (w : ℚ)) 0 (by simp)
  have hql := quality_list_spec trace w hw trace.length 0 (by omega)
  have hmaplen : ((List.range' 0 trace.length).map
      (fun k => smoothedSpec trace k w)).length = trace.length := by
    simp
  have hmne : ((List.range' 0 trace.length).map
      (fun k => smoothedSpec trace k w)) ≠ [] := by
    intro hnil
    rw [hnil] at hmaplen
    simp at hmaplen
    exact hne (List.eq_nil_of_length_eq_zero hmaplen.symm)
  have hmean : mean ((List.range' 0 trace.length).map
      (fun k => smoothedSpec trace k w)) = .ok (avgSmoothedSpec trace w) := by
    rw [mean_of_ne_nil hmne, hmaplen]
    unfold avgSmoothedSpec
    rw [List.range_eq_range']
  rw [simulate_playback]
  simp only [hloop, hql, hmean]
  rw [specRun, List.range_eq_range']

lemma playback_loop_zero (trace : List ℚ) (seg : ℚ) (w : ℕ) (hw : 1 ≤ w) :
    ∀ (suffix : List ℚ) (i : ℕ) (buf stall : ℚ),
    trace.drop i = suffix → (0 : ℚ) ∈ suffix →
    playback_loop trace seg w suffix i buf stall =
      .error .zeroDivisionError := by
  intro suffix
  induction suffix with
  | nil =>
    intro i buf stall _ h0
    simp at h0
  | cons bw rest ih =>
    intro i buf stall hdrop h0
    have hlen : i < trace.length := drop_cons_lt hdrop
    rw [playback_loop]
    simp only [smoothed_ok hlen hw]
    by_cases hbw : bw = 0
    · subst hbw
      simp [pyDiv]
    · have hdiv : pyDiv (smoothedSpec trace i w * seg) bw =
          .ok (smoothedSpec trace i w * seg / bw) := by
        simp [pyDiv, hbw]
      simp only [hdiv]
      have h0' : (0 : ℚ) ∈ rest := by
        rcases List.mem_cons.mp h0 with h | h
        · exact absurd h.symm hbw
        · exact h
      split_ifs <;> exact ih (i + 1) _ _ (drop_cons_tail hdrop) h0'

lemma simulate_playback_zero_mem (trace : List ℚ) (seg : ℚ) (w : ℕ)
    (hw : 1 ≤ w) (h0 : (0 : ℚ) ∈ trace) :
    simulate_playback trace seg w = .error .zeroDivisionError := by
  rw [simulate_playback,
    playback_loop_zero trace seg w hw trace 0 _ _ (by simp) h0]

/-- C1: for a non-empty trace of positive throughputs with positive
segment length and smoothing window at least 1, simulate_playback
returns, and its total stall time is exactly the stall accumulated by
the buffer recurrence of the spec: buffer starts at
segment_length * smoothing_window, each index drains download_time or
stalls by the shortfall and empties, and each step replenishes by
segment_length. -/
theorem playback_stall_accumulation (trace : List ℚ) (seg : ℚ) (w : ℕ)
    (hne : trace ≠ []) (hseg : 0 < seg) (hw : 1 ≤ w)
    (hpos : ∀ x ∈ trace, 0 < x) :
    ∃ avg, simulate_playback trace seg w =
      .ok (avg, (specRun trace seg w).2) :=
  ⟨avgSmoothedSpec trace w, simulate_playback_spec trace seg w hne hw hpos⟩

/-- Witness for C1 at the singleton trace with throughput 1. -/
theorem playback_stall_accumulation_witness :
    ∃ avg, simulate_playback [1] 2 1 = .ok (avg, (specRun [1] 2 1).2) :=
  playback_stall_accumulation [1] 2 1 (by simp) (by norm_num) (by norm_num)
    (by
      intro x hx
      rw [List.mem_singleton] at hx
      subst hx
      norm_num)

lemma smoothedSpec_eval (trace : List ℚ) (idx window start : ℕ)
    (h : (max 0 ((idx : ℤ) - (window : ℤ) + 1)).toNat = start) :
    smoothedSpec trace idx window =
      ((trace.drop start).take (idx + 1 - start)).sum /
        ((((trace.drop start).take (idx + 1 - start)).length : ℚ)) := by
  rw [smoothedSpec, h]

lemma get_smoothed_eval (trace : List ℚ) (idx window start : ℕ)
    (h : (max 0 ((idx : ℤ) - (window : ℤ) + 1)).toNat = start) :
    get_smoothed_throughput trace idx window =
      mean ((trace.drop start).take (idx + 1 - start)) := by
  rw [get_smoothed_throughput, h]

/-- C3: on every valid input the average_selected_bitrate returned by
simulate_playback is the arithmetic mean of the smoothed quality
decisions over all trace indices; on the concrete trace with raw
values 1 and 3 and window 2 it returns 3/2, which differs from the
mean 2 of the raw trace values. -/
theorem avg_bitrate_mean_of_quality :
    (∀ (trace : List ℚ) (seg : ℚ) (w : ℕ), trace ≠ [] → 1 ≤ w →
      (∀ x ∈ trace, 0 < x) →
      ∃ stall, simulate_playback trace seg w =
        .ok (avgSmoothedSpec trace w, stall)) ∧
    simulate_playback [1, 3] 2 2 = .ok (3 / 2, 0) ∧
    (3 : ℚ) / 2 ≠ ([1, 3] : List ℚ).sum / ((([1, 3] : List ℚ).length : ℚ)) := by
  refine ⟨?_, ?_, ?_⟩
  · intro trace seg w hne hw hpos
    exact ⟨(specRun trace seg w).2,
      simulate_playback_spec trace seg w hne hw hpos⟩
  · norm_num [simulate_playback, playback_loop, quality_list,
      get_smoothed_throughput, mean, pyDiv]
  · norm_num

/-- Witness for C3 at the singleton trace with throughput 1. -/
theorem avg_bitrate_mean_of_quality_witness :
    ∃ stall, simulate_playback [1] 2 1 = .ok (avgSmoothedSpec [1] 1, stall) :=
  avg_bitrate_mean_of_quality.1 [1] 2 1 (by simp) (by norm_num)
    (by
      intro x hx
      rw [List.mem_singleton] at hx
      subst hx
      norm_num)

/-- C8: get_smoothed_throughput returns the arithmetic mean of the
inclusive slice from max(0, idx - window + 1) to idx; at index 0 it
returns the first trace element for any window of at least 1; with
window 1 it returns exactly the element at the index. -/
theorem smoothed_throughput_contract :
    (∀ (trace : List ℚ) (idx window : ℕ), idx < trace.length →
      1 ≤ window →
      get_smoothed_throughput trace idx window =
        .ok (smoothedSpec trace idx window)) ∧
    (∀ (x : ℚ) (trace : List ℚ) (window : ℕ), 1 ≤ window →
      get_smoothed_throughput (x :: trace) 0 window = .ok x) ∧
    (∀ (trace : List ℚ) (idx : ℕ), idx < trace.length →
      get_smoothed_throughput trace idx 1 = .ok (trace.getD idx 0)) := by
  refine ⟨fun _ _ _ h hw => smoothed_ok h hw, ?_, ?_⟩
  · intro x trace window hw
    rw [get_smoothed_eval (x :: trace) 0 window 0 (by omega)]
    simp [mean_singleton]
  · intro trace idx hidx
    rw [get_smoothed_eval trace idx 1 idx (by omega)]
    have htake : (trace.drop idx).take (idx + 1 - idx) = [trace.get ⟨idx, hidx⟩] := by
      have h1 : idx + 1 - idx = 1 := by omega
      rw [h1]
      exact List.take_one_drop_eq_of_lt_length hidx
    rw [htake, mean_singleton]
    have : trace.getD idx 0 = trace.get ⟨idx, hidx⟩ := by
      rw [List.getD_eq_get?, List.get?_eq_get hidx]
      rfl
    rw [this]

/-- Witness for C8 on the trace with values 3 and 5. -/
theorem smoothed_throughput_contract_witness :
    get_smoothed_throughput [3, 5] 1 2 = .ok (smoothedSpec [3, 5] 1 2) ∧
    get_smoothed_throughput [7, 5] 0 3 = .ok 7 ∧
    get_smoothed_throughput [3, 5] 1 1 = .ok (([3, 5] : List ℚ).getD 1 0) :=
  ⟨smoothed_throughput_contract.1 [3, 5] 1 2 (by norm_num) (by norm_num),
    smoothed_throughput_contract.2.1 7 [5] 3 (by norm_num),
    smoothed_throughput_contract.2.2 [3, 5] 1 (by norm_num)⟩

/-- C9: simulate_throughput with zero steps returns the empty trace,
and simulate_playback on the empty trace does not return an outcome:
the final mean ranges over zero indices, so it raises StatisticsError,
for every segment length and smoothing window. -/
theorem empty_trace_playback_raises (seg : ℚ) (w : ℕ) :
    (∀ (P : List (List ℚ)) (states : List ℚ) (rand : ℕ → ℚ),
      simulate_throughput 0 P states rand = .ok []) ∧
    simulate_playback [] seg w = .error .statisticsError := by
  constructor
  · intro P states rand
    rfl
  · rfl

/-- C6 counterexample: on the trace containing the single throughput 0,
simulate_playback attempts the division and fails with
ZeroDivisionError; the code contains no InvalidStateError check at
all, so the claimed error is never raised. -/
theorem zero_throughput_counterexample :
    simulate_playback [0] 2 1 = .error .zeroDivisionError :=
  simulate_playback_zero_mem [0] 2 1 (by norm_num) (by simp)

/-- C6 amended: on every trace containing a zero throughput (with
smoothing window at least 1), simulate_playback performs the division
and the call fails with ZeroDivisionError, not with any dedicated
InvalidStateError. -/
theorem zero_throughput_zero_division (trace : List ℚ) (seg : ℚ) (w : ℕ)
    (hw : 1 ≤ w) (h0 : (0 : ℚ) ∈ trace) :
    simulate_playback trace seg w = .error .zeroDivisionError :=
  simulate_playback_zero_mem trace seg w hw h0

/-- Witness for the amended C6 on a two-element trace whose second
throughput is 0. -/
theorem zero_throughput_zero_division_witness :
    simulate_playback [1, 0] 3 1 = .error .zeroDivisionError :=
  zero_throughput_zero_division [1, 0] 3 1 (by norm_num) (by simp)

/-- C2: whenever simulate_throughput returns a trace for a non-negative
step count, the trace has exactly num_steps entries, the chain starts
in state index 0, and the entry at every position t is the state value
at the index reached by t applications of the spec transition rule:
move to the first index whose cumulative row probability strictly
exceeds the draw. -/
theorem chain_sampler_trace_spec (num_steps : ℤ) (P : List (List ℚ))
    (states : List ℚ) (rand : ℕ → ℚ) (trace : List ℚ)
    (hns : 0 ≤ num_steps)
    (h : simulate_throughput num_steps P states rand = .ok trace) :
    trace.length = num_steps.toNat ∧ specStateSeq P rand 0 = 0 ∧
    ∀ t, t < num_steps.toNat →
      trace.get? t = states.get? (specStateSeq P rand t) := by
  obtain ⟨hlen, hget⟩ := go_ok_spec num_steps.toNat 0 0 trace h
  refine ⟨hlen, rfl, fun t ht => ?_⟩
  rw [hget t ht]
  have hs := seqFrom_stateSeq P rand t 0
  rw [show specStateSeq P rand 0 = 0 from rfl] at hs
  rw [hs]
  norm_num

/-- Witness for C2: a two-step run of the one-state chain. -/
theorem chain_sampler_trace_spec_witness :
    ([9, 9] : List ℚ).length = (2 : ℤ).toNat ∧
    specStateSeq [[1]] (fun _ => 0) 0 = 0 ∧
    ∀ t, t < (2 : ℤ).toNat →
      ([9, 9] : List ℚ).get? t =
        ([9] : List ℚ).get? (specStateSeq [[1]] (fun _ => 0) t) :=
  chain_sampler_trace_spec 2 [[1]] [9] (fun _ => 0) [9, 9] (by norm_num)
    (by norm_num [simulate_throughput, simulate_throughput_go, chainStep,
      chainScan, pyGet])

/-- C5: when the draw r is at least the total sum of the (non-negative)
current row, the scan finds no index whose cumulative probability
exceeds r and the chain step succeeds with the state unchanged --
defined behavior, not a failure. -/
theorem uncovered_tail_stays (P : List (List ℚ)) (current : ℕ) (r : ℚ)
    (row : List ℚ) (hrow : P.get? current = some row)
    (hnn : ∀ p ∈ row, 0 ≤ p) (hsum : row.sum ≤ r) :
    chainStep P current r = .ok current := by
  simp only [chainStep, pyGet, hrow]
  exact congrArg Except.ok
    (chainScan_stay r row 0 0 current hnn (by simpa using hsum))

/-- Witness for C5: a row summing to 1/2 with a draw of 3/4. -/
theorem uncovered_tail_stays_witness :
    chainStep [[1 / 2]] 0 (3 / 4) = .ok 0 :=
  uncovered_tail_stays [[1 / 2]] 0 (3 / 4) [1 / 2] rfl
    (by
      intro p hp
      rw [List.mem_singleton] at hp
      subst hp
      norm_num)
    (by norm_num)

/-- C7 counterexample: simulate_throughput raises no ConfigurationError:
with num_steps = -1 it silently returns the empty trace, and with a
row of length 3 against two states it silently returns a trace. -/
theorem sampler_no_config_error_counterexample :
    simulate_throughput (-1) [[1]] [5] (fun _ => 0) = .ok [] ∧
    simulate_throughput 1 [[1, 0, 0]] [5, 6] (fun _ => 0) = .ok [5] := by
  constructor
  · rfl
  · norm_num [simulate_throughput, simulate_throughput_go, chainStep,
      chainScan, pyGet]

/-- C7 amended: simulate_throughput performs no precondition
validation: every call with num_steps < 0 silently returns the empty
trace; a row longer than the state list is not rejected either -- the
sampler returns a trace when the walk stays in range and fails only
later with IndexError (never ConfigurationError) when the walk leaves
the state list. -/
theorem sampler_no_validation :
    (∀ (num_steps : ℤ) (P : List (List ℚ)) (states : List ℚ)
      (rand : ℕ → ℚ), num_steps < 0 →
      simulate_throughput num_steps P states rand = .ok []) ∧
    simulate_throughput 1 [[1, 0]] [5] (fun _ => 0) = .ok [5] ∧
    simulate_throughput 2 [[0, 1], [1, 0]] [5] (fun _ => 1 / 2) =
      .error .indexError := by
  refine ⟨?_, ?_, ?_⟩
  · intro num_steps P states rand hneg
    unfold simulate_throughput
    rw [show num_steps.toNat = 0 by omega]
    rfl
  · norm_num [simulate_throughput, simulate_throughput_go, chainStep,
      chainScan, pyGet]
  · norm_num [simulate_throughput, simulate_throughput_go, chainStep,
      chainScan, pyGet]

/-- Witness for the amended C7 with num_steps = -2. -/
theorem sampler_no_validation_witness :
    simulate_throughput (-2) [[1]] [3] (fun _ => 0) = .ok [] :=
  sampler_no_validation.1 (-2) [[1]] [3] (fun _ => 0) (by norm_num)

/-- C10: whenever the sampler returns a trace and every row of the
transition matrix is no longer than the state list, every trace entry
is one of the state values; with at least one step the first entry is
states[0]; and one chain step never moves a valid state index out of
range of the state list. -/
theorem sampler_trace_values_in_states (num_steps : ℤ)
    (P : List (List ℚ)) (states : List ℚ) (rand : ℕ → ℚ)
    (trace : List ℚ)
    (hrow : ∀ row ∈ P, row.length ≤ states.length)
    (h : simulate_throughput num_steps P states rand = .ok trace) :
    (∀ x ∈ trace, x ∈ states) ∧
    (1 ≤ num_steps → trace.head? = states.get? 0) ∧
    (∀ (current : ℕ) (r : ℚ) (next : ℕ), current < states.length →
      chainStep P current r = .ok next → next < states.length) := by
  refine ⟨go_mem num_steps.toNat 0 0 trace h, ?_, ?_⟩
  · intro h1
    obtain ⟨m, hm⟩ : ∃ m, num_steps.toNat = m + 1 :=
      ⟨num_steps.toNat - 1, by omega⟩
    unfold simulate_throughput at h
    rw [hm, simulate_throughput_go] at h
    cases hs : pyGet states 0 with
    | error e =>
      simp only [hs] at h
      exact Except.noConfusion h
    | ok s =>
      simp only [hs] at h
      cases hc : chainStep P 0 (rand 0) with
      | error e =>
        simp only [hc] at h
        exact Except.noConfusion h
      | ok next =>
        simp only [hc] at h
        cases hr : simulate_throughput_go P states rand m 1 next with
        | error e =>
          simp only [hr] at h
          exact Except.noConfusion h
        | ok rest =>
          simp only [hr] at h
          simp at h
          subst h
          rw [List.head?_cons, pyGet_eq_ok.mp hs]
  · intro current r next hcur hstep
    have hnext := chainStep_ok_inv hstep
    subst hnext
    unfold specNext
    cases hfind : firstExceed (P.getD current []) r with
    | none =>
      simpa [hfind] using hcur
    | some k =>
      rw [Option.getD_some]
      rw [firstExceed] at hfind
      have hk : k < (P.getD current []).length :=
        List.mem_range.mp (List.mem_of_find?_eq_some hfind)
      cases hget : P.get? current with
      | none =>
        rw [List.getD_eq_get?, hget] at hk
        simp at hk
      | some row =>
        have hlen := hrow row (List.get?_mem hget)
        rw [List.getD_eq_get?, hget] at hk
        simp at hk
        omega

/-- Witness for C10: a two-step run of the one-state chain with state
value 7. -/
theorem sampler_trace_values_in_states_witness :
    (∀ x ∈ ([7, 7] : List ℚ), x ∈ ([7] : List ℚ)) ∧
    ((1 : ℤ) ≤ 2 → ([7, 7] : List ℚ).head? = ([7] : List ℚ).get? 0) ∧
    (∀ (current : ℕ) (r : ℚ) (next : ℕ),
      current < ([7] : List ℚ).length →
      chainStep [[1]] current r = .ok next →
      next < ([7] : List ℚ).length) :=
  sampler_trace_values_in_states 2 [[1]] [7] (fun _ => 0) [7, 7]
    (by
      intro row hr
      rw [List.mem_singleton] at hr
      subst hr
      simp)
    (by norm_num [simulate_throughput, simulate_throughput_go, chainStep,
      chainScan, pyGet])

lemma sweep_cell_ok_key {sqrtFn : ℚ → ℚ} {P : List (List ℚ)}
    {states : List ℚ} {num_steps : ℤ} {runs : ℕ} {rand : ℕ → ℚ}
    {seg : ℚ} {w : ℕ} {cell : SweepCell}
    (h : sweep_cell sqrtFn P states num_steps runs rand seg w = .ok cell) :
    cell.segment_length = seg ∧ cell.smooth_window = w := by
  unfold sweep_cell at h
  cases hd : monte_carlo P states num_steps seg w runs rand with
  | error e =>
    simp only [hd] at h
    exact Except.noConfusion h
  | ok data =>
    simp only [hd] at h
    cases h1 : mean (data.map Prod.fst) with
    | error e =>
      simp only [h1] at h
      exact Except.noConfusion h
    | ok mq =>
      simp only [h1] at h
      cases h2 : stdev sqrtFn (data.map Prod.fst) with
      | error e =>
        simp only [h2] at h
        exact Except.noConfusion h
      | ok sq =>
        simp only [h2] at h
        cases h3 : mean (data.map Prod.snd) with
        | error e =>
          simp only [h3] at h
          exact Except.noConfusion h
        | ok ms =>
          simp only [h3] at h
          cases h4 : stdev sqrtFn (data.map Prod.snd) with
          | error e =>
            simp only [h4] at h
            exact Except.noConfusion h
          | ok ss =>
            simp only [h4] at h
            simp at h
            subst h
            exact ⟨rfl, rfl⟩

lemma sweep_rows_inner_keys {sqrtFn : ℚ → ℚ} {P : List (List ℚ)}
    {states : List ℚ} {num_steps : ℤ} {runs : ℕ} {rand : ℕ → ℚ}
    {seg : ℚ} :
    ∀ (ws : List ℕ) (c : ℕ) (cells : List SweepCell),
    sweep_rows_inner sqrtFn P states num_steps runs rand seg ws c =
      .ok cells →
    cells.map (fun cell => (cell.segment_length, cell.smooth_window)) =
      ws.map (fun w => (seg, w)) := by
  intro ws
  induction ws with
  | nil =>
    intro c cells h
    simp [sweep_rows_inner] at h
    subst h
    simp
  | cons w ws ih =>
    intro c cells h
    rw [sweep_rows_inner] at h
    cases h1 : sweep_cell sqrtFn P states num_steps runs
        (fun t => rand (c * runs * num_steps.toNat + t)) seg w with
    | error e =>
      simp only [h1] at h
      exact Except.noConfusion h
    | ok cell =>
      simp only [h1] at h
      cases h2 : sweep_rows_inner sqrtFn P states num_steps runs rand seg
          ws (c + 1) with
      | error e =>
        simp only [h2] at h
        exact Except.noConfusion h
      | ok rest =>
        simp only [h2] at h
        simp at h
        subst h
        obtain ⟨hseg, hw⟩ := sweep_cell_ok_key h1
        rw [List.map_cons, List.map_cons, hseg, hw, ih (c + 1) rest h2]

lemma sweep_rows_keys {sqrtFn : ℚ → ℚ} {P : List (List ℚ)}
    {states : List ℚ} {num_steps : ℤ} {runs : ℕ} {rand : ℕ → ℚ}
    {windows : List ℕ} :
    ∀ (segs : List ℚ) (c : ℕ) (rows : List SweepCell),
    sweep_rows sqrtFn P states num_steps runs rand windows segs c =
      .ok rows →
    rows.map (fun cell => (cell.segment_length, cell.smooth_window)) =
      segs.bind (fun s => windows.map (fun w => (s, w))) := by
  intro segs
  induction segs with
  | nil =>
    intro c rows h
    simp [sweep_rows] at h
    subst h
    simp
  | cons seg segs ih =>
    intro c rows h
    rw [sweep_rows] at h
    cases h1 : sweep_rows_inner sqrtFn P states num_steps runs rand seg
        windows c with
    | error e =>
      simp only [h1] at h
      exact Except.noConfusion h
    | ok cells =>
      simp only [h1] at h
      cases h2 : sweep_rows sqrtFn P states num_steps runs rand windows
          segs (c + windows.length) with
      | error e =>
        simp only [h2] at h
        exact Except.noConfusion h
      | ok rest =>
        simp only [h2] at h
        simp at h
        subst h
        rw [List.map_append, sweep_rows_inner_keys windows c cells h1,
          ih (c + windows.length) rest h2]
        simp

lemma bind_product_length (segs : List ℚ) (windows : List ℕ) :
    (segs.bind (fun s => windows.map (fun w => (s, w)))).length =
      segs.length * windows.length := by
  induction segs with
  | nil => simp
  | cons s ss ih =>
    simp [ih]
    ring

/-- C4: whenever parameter_sweep returns, it returns exactly one row
per (segment_length, smoothing_window) pair, in nested order with the
segment lengths outer and the smoothing windows inner, so the row
count is the product of the two list lengths. -/
theorem sweep_row_count_and_order (sqrtFn : ℚ → ℚ) (P : List (List ℚ))
    (states : List ℚ) (num_steps : ℤ) (segment_lengths : List ℚ)
    (smooth_windows : List ℕ) (runs : ℕ) (rand : ℕ → ℚ)
    (rows : List SweepCell)
    (h : parameter_sweep sqrtFn P states num_steps segment_lengths
      smooth_windows runs rand = .ok rows) :
    rows.map (fun cell => (cell.segment_length, cell.smooth_window)) =
      segment_lengths.bind
        (fun s => smooth_windows.map (fun w => (s, w))) ∧
    rows.length = segment_lengths.length * smooth_windows.length := by
  have hkeys := sweep_rows_keys segment_lengths 0 rows h
  refine ⟨hkeys, ?_⟩
  have hlen := congrArg List.length hkeys
  rw [List.length_map] at hlen
  rw [hlen, bind_product_length]

/-- Witness for C4: a 1-by-1 sweep over one segment length and one
window with two Monte Carlo runs of a one-state chain. -/
theorem sweep_row_count_and_order_witness :
    ([⟨2, 1, 1, 0, 0, 0⟩] : List SweepCell).map
        (fun cell => (cell.segment_length, cell.smooth_window)) =
      ([2] : List ℚ).bind
        (fun s => ([1] : List ℕ).map (fun w => (s, w))) ∧
    ([⟨2, 1, 1, 0, 0, 0⟩] : List SweepCell).length =
      ([2] : List ℚ).length * ([1] : List ℕ).length :=
  sweep_row_count_and_order id [[1]] [1] 1 [2] [1] 2 (fun _ => 0)
    [⟨2, 1, 1, 0, 0, 0⟩]
    (by norm_num [parameter_sweep, sweep_rows, sweep_rows_inner, sweep_cell,
      monte_carlo, monte_carlo_loop, simulate_throughput,
      simulate_throughput_go, chainStep, chainScan, pyGet,
      simulate_playback, playback_loop, quality_list,
      get_smoothed_throughput, mean, pyDiv, stdev])
